import Mathlib

/-!
Verification development for the resource-scraper program
(src/scrape_resources.py).  The program is a set of regex-based
extractors over one text document.  We embed each regular expression as a
small syntax tree together with a backtracking matcher whose list of
successes is ordered exactly like the Python `re` engine explores
alternatives (greedy quantifiers longest-first, lazy quantifiers
shortest-first, alternation left-first); `re.findall` is modelled by a
leftmost, non-overlapping scan taking the first success at each position.
Character classes follow the source patterns; the shorthand classes
`\s` and `\d` are modelled by their ASCII meaning, which is exact for
every byte the patterns distinguish.
-/

/-- The single-quote character (code 39), kept out of literals. -/
def squote : Char := Char.ofNat 39

/-- ASCII model of the Python regex class `\s`. -/
def pySpace (c : Char) : Bool :=
  c == ' ' || c == '\t' || c == '\n' || c == '\r' || c == Char.ofNat 11 || c == Char.ofNat 12

/-- ASCII model of the Python regex class `\d`. -/
def pyDigit (c : Char) : Bool := '0' ≤ c && c ≤ '9'

/-- Model of the Python regex class `\S`. -/
def nonSpace (c : Char) : Bool := !(pySpace c)

/-- Python `s.rstrip(c)` for a single character: remove every trailing
occurrence of `c`. -/
def rstripChar (s : String) (c : Char) : String :=
  String.mk ((s.data.reverse.dropWhile (fun x => x == c)).reverse)

/-- The URL extractor cleanup from `extract_urls`:
`url.rstrip(backslash).rstrip(squote).rstrip(dquote)`. -/
def stripURL (s : String) : String :=
  rstripChar (rstripChar (rstripChar s '\\') squote) '"'

/-- The file-path cleanup from `extract_file_paths`:
the URL rule followed by `.rstrip(semicolon).rstrip(rparen)`. -/
def stripPath (s : String) : String :=
  rstripChar (rstripChar (stripURL s) ';') ')'

/-- Lexicographic comparison of character lists by code point, the order
Python `sorted` uses on `str`. -/
def listLtB : List Char → List Char → Bool
  | [], [] => false
  | [], _ :: _ => true
  | _ :: _, [] => false
  | a :: as, b :: bs => if a < b then true else if b < a then false else listLtB as bs

/-- Lexicographic strict order on strings, computably. -/
def strLt (a b : String) : Bool := listLtB a.data b.data

/-- Insert a string into a strictly sorted list, skipping duplicates. -/
def insortD (s : String) : List String → List String
  | [] => [s]
  | t :: ts => if strLt s t then s :: t :: ts else if s = t then t :: ts else t :: insortD s ts

/-- Python `sorted(set(l))`: strictly ascending list of the distinct
elements of `l`. -/
def sortedDedup (l : List String) : List String := l.foldr insortD []

/-- Regex syntax trees for the patterns of the program.  Quantifiers only
ever apply to one-character patterns in the source, so the star
constructors carry a character predicate. -/
inductive RE where
  | seq (ps : List (Char → Bool))
  | starG (p : Char → Bool)
  | starL (p : Char → Bool)
  | opt (p : Char → Bool)
  | alt (a b : RE)
  | cat (a b : RE)
  | grp (i : Nat) (r : RE)

/-- Capture slots for groups 1 and 2 (no pattern has more). -/
def Caps : Type := Option (List Char) × Option (List Char)

def noCaps : Caps := (none, none)

def setCap (i : Nat) (v : List Char) (cp : Caps) : Caps :=
  if i = 1 then (some v, cp.2) else (cp.1, some v)

/-- Match a list of one-character patterns against the head of the input,
returning consumed characters and the remaining input. -/
def matchSeq : List (Char → Bool) → List Char → Option (List Char × List Char)
  | [], rest => some ([], rest)
  | _ :: _, [] => none
  | p :: ps, c :: rs =>
      if p c then (matchSeq ps rs).map (fun pr => (c :: pr.1, pr.2)) else none

/-- All ways a regex can match a prefix of `rest`, as
(consumed, remaining, captures), in the priority order of the Python
backtracking engine. -/
def RE.run : RE → List Char → Caps → List (List Char × List Char × Caps)
  | .seq ps, rest, cp =>
      match matchSeq ps rest with
      | some pr => [(pr.1, pr.2, cp)]
      | none => []
  | .starG p, rest, cp =>
      (List.range ((rest.takeWhile p).length + 1)).reverse.map
        (fun k => (rest.take k, rest.drop k, cp))
  | .starL p, rest, cp =>
      (List.range ((rest.takeWhile p).length + 1)).map
        (fun k => (rest.take k, rest.drop k, cp))
  | .opt p, rest, cp =>
      (match rest with
        | c :: rs => if p c then [([c], rs, cp)] else []
        | [] => []) ++ [([], rest, cp)]
  | .alt a b, rest, cp => a.run rest cp ++ b.run rest cp
  | .cat a b, rest, cp =>
      (a.run rest cp).flatMap
        (fun x => (b.run x.2.1 x.2.2).map (fun y => (x.1 ++ y.1, y.2.1, y.2.2)))
  | .grp i r, rest, cp =>
      (r.run rest cp).map (fun x => (x.1, x.2.1, setCap i x.1 x.2.2))

/-- First (highest-priority) match of `re` at the start of `rest`. -/
def tryMatch (re : RE) (rest : List Char) : Option (List Char × List Char × Caps) :=
  (re.run rest noCaps).head?

/-- Leftmost non-overlapping scan, as `re.findall`.  `lsOnly` restricts
match positions to line starts (a leading `^` under `re.MULTILINE`);
`atLS` records whether the current position is a line start.  An empty
match advances by one character, as in the Python scanner. -/
def scanAux (re : RE) (lsOnly : Bool) : Nat → List Char → Bool → List (List Char × Caps)
  | 0, _, _ => []
  | fuel + 1, rest, atLS =>
      match (if lsOnly && !atLS then none else tryMatch re rest) with
      | some ([], _, cp) =>
          ([], cp) :: (match rest with
            | [] => []
            | c :: rs => scanAux re lsOnly fuel rs (c == '\n'))
      | some (c :: con, rest2, cp) =>
          (c :: con, cp) :: scanAux re lsOnly fuel rest2 (List.getLastD con c == '\n')
      | none =>
          match rest with
          | [] => []
          | c :: rs => scanAux re lsOnly fuel rs (c == '\n')

/-- The scan at its canonical fuel. -/
def scanFrom (re : RE) (lsOnly : Bool) (rest : List Char) (atLS : Bool) :
    List (List Char × Caps) :=
  scanAux re lsOnly (rest.length + 1) rest atLS

def findAllC (re : RE) (lsOnly : Bool) (content : String) : List (List Char × Caps) :=
  scanFrom re lsOnly content.data true

/-- `re.findall` for a pattern without groups: the whole matches. -/
def findAllStr (re : RE) (content : String) : List String :=
  (findAllC re false content).map (fun x => String.mk x.1)

/-- `re.findall` for a pattern with one group: the group captures. -/
def findAllG1 (re : RE) (content : String) : List String :=
  (findAllC re false content).map (fun x => String.mk (x.2.1.getD []))

/-- `re.findall` for a pattern with two groups: pairs of captures. -/
def findAllG2 (re : RE) (content : String) : List (String × String) :=
  (findAllC re false content).map
    (fun x => (String.mk (x.2.1.getD []), String.mk (x.2.2.getD [])))

/-- `re.findall` under `re.MULTILINE` for a two-group pattern anchored
with a leading `^`. -/
def findAllG2LS (re : RE) (content : String) : List (String × String) :=
  (findAllC re true content).map
    (fun x => (String.mk (x.2.1.getD []), String.mk (x.2.2.getD [])))

/-- A literal string in a pattern. -/
def lit (s : String) : RE := .seq (s.data.map (fun a => fun c => c == a))

/-- A literal character list in a pattern. -/
def litC (l : List Char) : RE := .seq (l.map (fun a => fun c => c == a))

/-- A case-insensitive literal (patterns compiled with `re.IGNORECASE`). -/
def litIC (s : String) : RE :=
  .seq (s.data.map (fun a => fun c => c == a.toLower || c == a.toUpper))

/-- A one-character class. -/
def cls (p : Char → Bool) : RE := .seq [p]

/-- Greedy `+` on a one-character class. -/
def plus (p : Char → Bool) : RE := .cat (cls p) (.starG p)

/-- Right-nested concatenation of a pattern list. -/
def reOf (l : List RE) : RE := l.foldr RE.cat (.seq [])

/-! ### The patterns of the source, one definition per regex literal -/

/-- Class of the URL body in `extract_urls`. -/
def urlCls1 (c : Char) : Bool :=
  !(pySpace c || c == '"' || c == squote || c == '<' || c == '>' || c == '(' || c == ')')

/-- Class of the final URL character in `extract_urls`. -/
def urlCls2 (c : Char) : Bool :=
  !(pySpace c || c == '"' || c == squote || c == '<' || c == '>' || c == '(' || c == ')' ||
    c == '.' || c == ',' || c == ';' || c == ':' || c == '!' || c == '?' || c == ']')

def urlRE : RE :=
  reOf [lit "http", .opt (fun c => c == 's'), lit "://", plus urlCls1, cls urlCls2]

def extract_urls (content : String) : List String :=
  sortedDedup ((findAllStr urlRE content).map stripURL)

/-- Class of path characters in `extract_file_paths`. -/
def pathCls (c : Char) : Bool :=
  !(pySpace c || c == '"' || c == squote || c == '<' || c == '>' || c == '|' || c == '&' ||
    c == ';')

def pathRE (pre : String) : RE := .cat (lit pre) (plus pathCls)

def pathPrefixes : List String :=
  ["~/", "/tmp/", "/var/", "/usr/", "/Library/", "/Applications/", "/private/", "/etc/",
   "/bin/"]

def extract_file_paths (content : String) : List String :=
  sortedDedup
    ((((pathPrefixes.map (fun p => findAllStr (pathRE p) content)).flatten).map
        stripPath).filter
      (fun p => !(p == "") && decide (2 < p.length)))

/-- Class `[^;|&\n]` of the unzip command pattern. -/
def zCls (c : Char) : Bool := !(c == ';' || c == '|' || c == '&' || c == '\n')

def zipDetRE : RE :=
  reOf [lit "unzip", .starG zCls, lit "-P", plus pySpace, .grp 1 (plus nonSpace),
    .starL zCls, .grp 2 (.cat (plus nonSpace) (lit ".zip"))]

def notSquote (c : Char) : Bool := !(c == squote)

def zipVarRE : RE :=
  reOf [lit "Unzp", .starG pyDigit, litC ("+=".data ++ [squote] ++ "unzip".data),
    .starG notSquote, lit "-P", plus pySpace, .grp 1 (plus notSquote),
    cls (fun c => c == squote)]

/-- Class `[^\s"\x27]` of the zip-file reference pattern. -/
def zipFileCls (c : Char) : Bool := !(pySpace c || c == '"' || c == squote)

def zipFileRE : RE := .cat (plus zipFileCls) (lit ".zip")

structure ZipPair where
  file : String
  password : String
deriving DecidableEq

structure ZipInfo where
  passwords : List String
  zip_files : List String
  detailed : List ZipPair
deriving DecidableEq

def extract_zip_info (content : String) : ZipInfo :=
  { passwords := sortedDedup (findAllG1 zipVarRE content)
    zip_files := sortedDedup (findAllStr zipFileRE content)
    detailed := (findAllG2 zipDetRE content).map (fun pr => ⟨pr.2, pr.1⟩) }

def sshRE : RE :=
  reOf [lit "sshpass", plus pySpace, lit "-p", plus pySpace, .grp 1 (plus nonSpace)]

/-- Class `[^\s;|&]` of the generic `-P` credential pattern. -/
def zipPassCls (c : Char) : Bool :=
  !(pySpace c || c == ';' || c == '|' || c == '&')

def zipPassRE : RE :=
  reOf [lit "-", cls (fun c => c == 'p' || c == 'P'), plus pySpace, .grp 1 (plus zipPassCls)]

/-- Class of credential values in the key-value patterns. -/
def credValCls (c : Char) : Bool :=
  !(c == '"' || c == squote || c == ';' || pySpace c)

/-- The common tail of the key-value credential patterns. -/
def kvTail : RE :=
  reOf [cls (fun c => c == '=' || c == ':'), .starG pySpace,
    .opt (fun c => c == '"' || c == squote), .grp 1 (plus credValCls)]

def passwordRE : RE := .cat (litIC "password") kvTail

def passwdRE : RE := .cat (litIC "passwd") kvTail

def apiKeyRE : RE :=
  reOf [litIC "api", .opt (fun c => c == '_' || c == '-'), litIC "key", kvTail]

def tokenRE : RE := .cat (litIC "token") kvTail

structure Credential where
  type : String
  value : String
deriving DecidableEq

/-- The discard rule of the credential loop:
`len(m) > 2 and m not in [alpine, dollar-password]`. -/
def credFilter (m : String) : Bool :=
  decide (2 < m.length) && !(m == "alpine" || m == "$password")

def pass_patterns : List (RE × String) :=
  [(zipPassRE, "Zip Password"), (passwordRE, "Password"), (passwdRE, "Password"),
   (apiKeyRE, "API Key"), (tokenRE, "Token")]

def extract_credentials (content : String) : List Credential :=
  (findAllG1 sshRE content).map (fun p => ⟨"SSH Password", p⟩) ++
    pass_patterns.flatMap
      (fun pt => ((findAllG1 pt.1 content).filter credFilter).map (fun m => ⟨pt.2, m⟩))

/-- Class `[^/\s"\x27]` of the domain pattern. -/
def domCls (c : Char) : Bool := !(c == '/' || pySpace c || c == '"' || c == squote)

def domainRE : RE :=
  reOf [lit "http", .opt (fun c => c == 's'), lit "://", .grp 1 (plus domCls)]

def extract_domains (content : String) : List String :=
  sortedDedup (findAllG1 domainRE content)

/-- Class `[^\s"\x27]` of the API endpoint patterns. -/
def apiCls (c : Char) : Bool := !(pySpace c || c == '"' || c == squote)

def apiPhpRE : RE :=
  reOf [lit "http", .opt (fun c => c == 's'), lit "://", plus apiCls, lit ".php",
    .starG apiCls]

def apiApiRE : RE :=
  reOf [lit "http", .opt (fun c => c == 's'), lit "://", plus apiCls, lit "/api/",
    .starG apiCls]

def apiVerRE : RE :=
  reOf [lit "http", .opt (fun c => c == 's'), lit "://", plus apiCls, lit "/v",
    plus pyDigit, lit "/", .starG apiCls]

def extract_api_endpoints (content : String) : List String :=
  sortedDedup
    (findAllStr apiPhpRE content ++ findAllStr apiApiRE content ++
      findAllStr apiVerRE content)

/-- Class `[^\n;|&]` of the command patterns. -/
def cmdCls (c : Char) : Bool := !(c == '\n' || c == ';' || c == '|' || c == '&')

/-- Class `[^\n;]` of the ssh/scp command pattern. -/
def sshCmdCls (c : Char) : Bool := !(c == '\n' || c == ';')

def curlRE : RE := .cat (lit "curl") (plus cmdCls)

def sshCmdRE : RE := .cat (.alt (lit "ssh") (lit "scp")) (plus sshCmdCls)

def irecRE : RE := .cat (lit "./irecovery") (plus cmdCls)

def toolsRE : RE :=
  reOf [lit "./",
    .alt (lit "gaster") (.alt (lit "ipwnder") (.alt (lit "iproxy")
      (.alt (lit "img4tool") (.alt (lit "Kernel64Patcher") (lit "asr64"))))),
    .starG cmdCls]

structure Commands where
  curl_commands : List String
  ssh_commands : List String
  irecovery_commands : List String
  other_tools : List String
deriving DecidableEq

def extract_commands (content : String) : Commands :=
  { curl_commands := (sortedDedup (findAllStr curlRE content)).take 50
    ssh_commands := (sortedDedup (findAllStr sshCmdRE content)).take 20
    irecovery_commands := (sortedDedup (findAllStr irecRE content)).take 30
    other_tools := (sortedDedup (findAllStr toolsRE content)).take 30 }

def deviceRE : RE :=
  reOf [.alt (lit "iPhone") (.alt (lit "iPad") (.alt (lit "iPod") (lit "AppleTV"))),
    plus pyDigit, lit ",", plus pyDigit]

def extract_device_ids (content : String) : List String :=
  sortedDedup (findAllStr deviceRE content)

def varNameStart (c : Char) : Bool :=
  ('A' ≤ c && c ≤ 'Z') || ('a' ≤ c && c ≤ 'z') || c == '_'

def varNameCh (c : Char) : Bool := varNameStart c || pyDigit c

def varRE : RE :=
  reOf [.grp 1 (.cat (cls varNameStart) (.starG varNameCh)), .opt (fun c => c == '+'),
    litC ('=' :: [squote]), .grp 2 (plus notSquote), cls (fun c => c == squote)]

/-- One step of the first-wins dictionary build of `extract_variables`. -/
def varIns (d : List (String × String)) (nv : String × String) : List (String × String) :=
  if d.any (fun p => p.1 == nv.1) then d else d ++ [nv]

def extract_variables (content : String) : List (String × String) :=
  (findAllG2LS varRE content).foldl varIns []

structure Report where
  urls : List String
  domains : List String
  api_endpoints : List String
  file_paths : List String
  zip_info : ZipInfo
  credentials : List Credential
  device_ids : List String
  commands : Commands
  vars : List (String × String)
deriving DecidableEq

/-- The aggregator of `main`: every extractor applied once to the raw
document. -/
def buildReport (content : String) : Report :=
  { urls := extract_urls content
    domains := extract_domains content
    api_endpoints := extract_api_endpoints content
    file_paths := extract_file_paths content
    zip_info := extract_zip_info content
    credentials := extract_credentials content
    device_ids := extract_device_ids content
    commands := extract_commands content
    vars := extract_variables content }

/-! ### Model of reading and decoding the input (main) -/

/-- Continuation byte test for UTF-8. -/
def contB (b : Nat) : Bool := 128 ≤ b && b ≤ 191

/-- Second-byte range of a three-byte UTF-8 sequence headed by `b`. -/
def snd3OK (b b2 : Nat) : Bool :=
  if b = 224 then 160 ≤ b2 && b2 ≤ 191
  else if b = 237 then 128 ≤ b2 && b2 ≤ 159
  else contB b2

/-- Second-byte range of a four-byte UTF-8 sequence headed by `b`. -/
def snd4OK (b b2 : Nat) : Bool :=
  if b = 240 then 144 ≤ b2 && b2 ≤ 191
  else if b = 244 then 128 ≤ b2 && b2 ≤ 143
  else contB b2

/-- What an invalid sequence contributes: dropped under the
`errors=ignore` policy of the source, one U+FFFD under `errors=replace`. -/
def errOut (replace : Bool) : List Char :=
  if replace then [Char.ofNat 65533] else []

/-- UTF-8 decoding with the Python error policy: an invalid or truncated
sequence consumes its maximal valid prefix and yields `errOut`. -/
def utf8DecodeAux (replace : Bool) : Nat → List Nat → List Char
  | 0, _ => []
  | _ + 1, [] => []
  | fuel + 1, b :: rest =>
      if b ≤ 127 then Char.ofNat b :: utf8DecodeAux replace fuel rest
      else if 194 ≤ b && b ≤ 223 then
        match rest with
        | [] => errOut replace
        | b2 :: rest2 =>
            if contB b2 then
              Char.ofNat ((b - 192) * 64 + (b2 - 128)) :: utf8DecodeAux replace fuel rest2
            else errOut replace ++ utf8DecodeAux replace fuel rest
      else if 224 ≤ b && b ≤ 239 then
        match rest with
        | [] => errOut replace
        | b2 :: rest2 =>
            if snd3OK b b2 then
              match rest2 with
              | [] => errOut replace
              | b3 :: rest3 =>
                  if contB b3 then
                    Char.ofNat ((b - 224) * 4096 + (b2 - 128) * 64 + (b3 - 128)) ::
                      utf8DecodeAux replace fuel rest3
                  else errOut replace ++ utf8DecodeAux replace fuel rest2
            else errOut replace ++ utf8DecodeAux replace fuel rest
      else if 240 ≤ b && b ≤ 244 then
        match rest with
        | [] => errOut replace
        | b2 :: rest2 =>
            if snd4OK b b2 then
              match rest2 with
              | [] => errOut replace
              | b3 :: rest3 =>
                  if contB b3 then
                    match rest3 with
                    | [] => errOut replace
                    | b4 :: rest4 =>
                        if contB b4 then
                          Char.ofNat
                              ((b - 240) * 262144 + (b2 - 128) * 4096 +
                                (b3 - 128) * 64 + (b4 - 128)) ::
                            utf8DecodeAux replace fuel rest4
                        else errOut replace ++ utf8DecodeAux replace fuel rest3
                  else errOut replace ++ utf8DecodeAux replace fuel rest2
            else errOut replace ++ utf8DecodeAux replace fuel rest
      else errOut replace ++ utf8DecodeAux replace fuel rest

/-- Decode a byte list as the Python `str` the program reads, under the
chosen error policy (`replace = false` is the `errors=ignore` of the
source; `replace = true` is the lossy-substitution policy). -/
def pyDecode (replace : Bool) (bs : List Nat) : String :=
  String.mk (utf8DecodeAux replace bs.length bs)

structure MainResult where
  exitCode : Nat
  stderrLines : List String
  report : Option Report
deriving DecidableEq

/-- Control flow of `main`: a missing input file is the caught error path
(message to stderr, return 1, no report); otherwise the bytes are decoded
with `errors=ignore` and the full report is produced (return 0). -/
def runMain (script : String) (file : Option (List Nat)) : MainResult :=
  match file with
  | none =>
      { exitCode := 1
        stderrLines := ["Error: File " ++ String.mk [squote] ++ script ++
          String.mk [squote] ++ " not found"]
        report := none }
  | some bytes =>
      { exitCode := 0
        stderrLines := []
        report := some (buildReport (pyDecode false bytes)) }

/-! ### Order facts about `strLt` and `sortedDedup` -/

theorem listLtB_iff (l1 : List Char) : ∀ l2 : List Char, listLtB l1 l2 = true ↔ l1 < l2 := by
  induction l1 with
  | nil =>
    intro l2
    cases l2 with
    | nil =>
      refine iff_of_false (by simp [listLtB]) ?_
      intro h
      cases h
    | cons b bs => exact iff_of_true (by simp [listLtB]) List.Lex.nil
  | cons a as ih =>
    intro l2
    cases l2 with
    | nil =>
      refine iff_of_false (by simp [listLtB]) ?_
      intro h
      cases h
    | cons b bs =>
      simp only [listLtB]
      by_cases h1 : a < b
      · rw [if_pos h1]
        exact iff_of_true rfl (List.Lex.rel h1)
      · rw [if_neg h1]
        by_cases h2 : b < a
        · rw [if_pos h2]
          refine iff_of_false (by simp) ?_
          intro h
          cases h with
          | cons h3 => exact lt_irrefl a h2
          | rel h3 => exact h1 h3
        · have hab : a = b := le_antisymm (le_of_not_lt h2) (le_of_not_lt h1)
          subst hab
          rw [if_neg h2, ih bs]
          constructor
          · intro h
            exact List.Lex.cons h
          · intro h
            cases h with
            | cons h3 => exact h3
            | rel h3 => exact absurd h3 h1

theorem strLt_iff (a b : String) : strLt a b = true ↔ a < b := by
  rw [String.lt_iff_toList_lt]
  exact listLtB_iff a.data b.data

theorem mem_insortD (x s : String) : ∀ l : List String, x ∈ insortD s l ↔ x = s ∨ x ∈ l := by
  intro l
  induction l with
  | nil => simp [insortD]
  | cons t ts ih =>
    rw [insortD]
    split_ifs with h1 h2
    · simp [List.mem_cons]
    · subst h2
      simp only [List.mem_cons]
      tauto
    · simp only [List.mem_cons, ih]
      tauto

theorem insortD_sorted (s : String) :
    ∀ l : List String, l.Sorted (· < ·) → (insortD s l).Sorted (· < ·) := by
  intro l
  induction l with
  | nil => intro _; simp [insortD]
  | cons t ts ih =>
    intro h
    rw [List.sorted_cons] at h
    rw [insortD]
    by_cases h1 : strLt s t
    · rw [if_pos h1, List.sorted_cons]
      refine ⟨?_, ?_⟩
      · intro b hb
        rcases List.mem_cons.mp hb with hb | hb
        · exact hb ▸ (strLt_iff s t).mp h1
        · exact lt_trans ((strLt_iff s t).mp h1) (h.1 b hb)
      · rw [List.sorted_cons]; exact h
    · rw [if_neg h1]
      by_cases h2 : s = t
      · rw [if_pos h2, List.sorted_cons]; exact h
      · rw [if_neg h2, List.sorted_cons]
        have hts : t < s := by
          have hle : t ≤ s := le_of_not_lt (fun hlt => h1 ((strLt_iff s t).mpr hlt))
          exact lt_of_le_of_ne hle (fun he => h2 he.symm)
        refine ⟨?_, ih h.2⟩
        intro b hb
        rcases (mem_insortD b s ts).mp hb with hb | hb
        · exact hb ▸ hts
        · exact h.1 b hb

theorem sortedDedup_sorted (l : List String) : (sortedDedup l).Sorted (· < ·) := by
  induction l with
  | nil => simp [sortedDedup]
  | cons a as ih => exact insortD_sorted a (sortedDedup as) ih

theorem mem_sortedDedup (x : String) (l : List String) : x ∈ sortedDedup l ↔ x ∈ l := by
  induction l with
  | nil => simp [sortedDedup]
  | cons a as ih =>
    show x ∈ insortD a (sortedDedup as) ↔ _
    rw [mem_insortD, ih, List.mem_cons]

theorem sorted_lt_nodup {l : List String} (h : l.Sorted (· < ·)) : l.Nodup :=
  h.imp (fun hab => ne_of_lt hab)

theorem sorted_lt_le {l : List String} (h : l.Sorted (· < ·)) : l.Sorted (· ≤ ·) :=
  h.imp (fun hab => le_of_lt hab)

theorem sorted_take_lt {l : List String} (h : l.Sorted (· < ·)) (n : Nat) {x y : String}
    (hx : x ∈ l.take n) (hy : y ∈ l) (hyn : y ∉ l.take n) : x < y := by
  have hsplit : l = l.take n ++ l.drop n := (List.take_append_drop n l).symm
  have h2 : (l.take n ++ l.drop n).Sorted (· < ·) := by rw [← hsplit]; exact h
  have h3 := List.pairwise_append.mp h2
  have hy2 : y ∈ l.drop n := by
    rw [hsplit] at hy
    rcases List.mem_append.mp hy with h' | h'
    · exact absurd h' hyn
    · exact h'
  exact h3.2.2 x hx y hy2

/-! ### Facts about the trailing-character stripping rules -/

theorem mkData : ∀ s : String, String.mk s.data = s
  | ⟨_⟩ => rfl

theorem dropWhile_head_false {p : Char → Bool} :
    ∀ (l : List Char) (x : Char), (l.dropWhile p).head? = some x → p x = false := by
  intro l
  induction l with
  | nil => intro x h; simp [List.dropWhile] at h
  | cons c cs ih =>
    intro x h
    rw [List.dropWhile_cons] at h
    by_cases hc : p c
    · rw [if_pos hc] at h
      exact ih x h
    · rw [if_neg hc] at h
      simp only [List.head?, Option.some.injEq] at h
      simp only [Bool.not_eq_true] at hc
      rw [← h]
      exact hc

theorem dropWhile_length_le {p : Char → Bool} :
    ∀ l : List Char, (l.dropWhile p).length ≤ l.length := by
  intro l
  induction l with
  | nil => simp
  | cons c cs ih =>
    rw [List.dropWhile_cons]
    by_cases hc : p c
    · rw [if_pos hc]
      exact le_trans ih (Nat.le_succ _)
    · rw [if_neg hc]

theorem rstripChar_data (s : String) (c : Char) :
    (rstripChar s c).data = (s.data.reverse.dropWhile (fun x => x == c)).reverse := rfl

theorem getLast?_rstripChar (s : String) (c : Char) :
    (rstripChar s c).data.getLast? ≠ some c := by
  rw [rstripChar_data, List.getLast?_reverse]
  intro h
  have h2 := dropWhile_head_false _ _ h
  simp at h2

theorem rstripChar_noop (s : String) (c : Char) (h : s.data.getLast? ≠ some c) :
    rstripChar s c = s := by
  have hd : s.data.reverse.head? ≠ some c := by rw [List.head?_reverse]; exact h
  have he : s.data.reverse.dropWhile (fun x => x == c) = s.data.reverse := by
    cases hrev : s.data.reverse with
    | nil => rfl
    | cons a as =>
      rw [List.dropWhile_cons]
      have ha : (a == c) = false := by
        rw [hrev] at hd
        simp only [List.head?, ne_eq, Option.some.injEq] at hd
        simp only [beq_eq_false_iff_ne, ne_eq]
        exact hd
      rw [ha]
      simp
  show String.mk ((s.data.reverse.dropWhile (fun x => x == c)).reverse) = s
  rw [he, List.reverse_reverse, mkData]

theorem rstripChar_length_le (s : String) (c : Char) :
    (rstripChar s c).data.length ≤ s.data.length := by
  rw [rstripChar_data, List.length_reverse]
  calc (s.data.reverse.dropWhile (fun x => x == c)).length
      ≤ s.data.reverse.length := dropWhile_length_le _
    _ = s.data.length := List.length_reverse _

theorem rstripChar_length_lt (s : String) (c : Char) (h : s.data.getLast? = some c) :
    (rstripChar s c).data.length < s.data.length := by
  rw [rstripChar_data, List.length_reverse]
  have hh : s.data.reverse.head? = some c := by rw [List.head?_reverse]; exact h
  cases hrev : s.data.reverse with
  | nil => rw [hrev] at hh; simp at hh
  | cons a as =>
    rw [hrev] at hh
    simp only [List.head?, Option.some.injEq] at hh
    have hlen : s.data.length = as.length + 1 := by
      rw [← List.length_reverse s.data, hrev, List.length_cons]
    rw [List.dropWhile_cons, hlen]
    have ha : (a == c) = true := by simp [hh]
    rw [ha]
    simp only [if_true]
    have := dropWhile_length_le (p := fun x => x == c) as
    omega

theorem stripURL_length_le (s : String) : (stripURL s).data.length ≤ s.data.length :=
  le_trans (rstripChar_length_le _ _)
    (le_trans (rstripChar_length_le _ _) (rstripChar_length_le _ _))

theorem stripURL_lt_bs (t : String) (h : t.data.getLast? = some '\\') :
    (stripURL t).data.length < t.data.length :=
  lt_of_le_of_lt
    (le_trans (rstripChar_length_le _ _) (rstripChar_length_le _ _))
    (rstripChar_length_lt t '\\' h)

theorem stripURL_lt_sq (t : String) (h : t.data.getLast? = some squote) :
    (stripURL t).data.length < t.data.length := by
  have h1 : rstripChar t '\\' = t := by
    apply rstripChar_noop
    rw [h]
    intro hh
    have : squote = '\\' := by injection hh
    exact absurd this (by decide)
  show (rstripChar (rstripChar (rstripChar t '\\') squote) '"').data.length < t.data.length
  rw [h1]
  exact lt_of_le_of_lt (rstripChar_length_le _ _) (rstripChar_length_lt t squote h)

theorem stripURL_lt_dq (t : String) (h : t.data.getLast? = some '"') :
    (stripURL t).data.length < t.data.length := by
  have h1 : rstripChar t '\\' = t := by
    apply rstripChar_noop
    rw [h]
    intro hh
    have : ('"' : Char) = '\\' := by injection hh
    exact absurd this (by decide)
  have h2 : rstripChar t squote = t := by
    apply rstripChar_noop
    rw [h]
    intro hh
    have : ('"' : Char) = squote := by injection hh
    exact absurd this (by decide)
  show (rstripChar (rstripChar (rstripChar t '\\') squote) '"').data.length < t.data.length
  rw [h1, h2]
  exact rstripChar_length_lt t '"' h

theorem stripURL_noop (t : String) (h1 : t.data.getLast? ≠ some '\\')
    (h2 : t.data.getLast? ≠ some squote) (h3 : t.data.getLast? ≠ some '"') :
    stripURL t = t := by
  show rstripChar (rstripChar (rstripChar t '\\') squote) '"' = t
  rw [rstripChar_noop t '\\' h1, rstripChar_noop t squote h2, rstripChar_noop t '"' h3]

theorem stripPath_noop (t : String) (h1 : t.data.getLast? ≠ some '\\')
    (h2 : t.data.getLast? ≠ some squote) (h3 : t.data.getLast? ≠ some '"')
    (h4 : t.data.getLast? ≠ some ';') (h5 : t.data.getLast? ≠ some ')') :
    stripPath t = t := by
  show rstripChar (rstripChar (stripURL t) ';') ')' = t
  rw [stripURL_noop t h1 h2 h3, rstripChar_noop t ';' h4, rstripChar_noop t ')' h5]

theorem stripPath_length_le (s : String) : (stripPath s).data.length ≤ s.data.length :=
  le_trans (rstripChar_length_le _ _)
    (le_trans (rstripChar_length_le _ _) (stripURL_length_le s))

theorem stripPath_lt_bs (t : String) (h : t.data.getLast? = some '\\') :
    (stripPath t).data.length < t.data.length :=
  lt_of_le_of_lt
    (le_trans (rstripChar_length_le _ _) (rstripChar_length_le _ _))
    (stripURL_lt_bs t h)

theorem stripPath_lt_sq (t : String) (h : t.data.getLast? = some squote) :
    (stripPath t).data.length < t.data.length :=
  lt_of_le_of_lt
    (le_trans (rstripChar_length_le _ _) (rstripChar_length_le _ _))
    (stripURL_lt_sq t h)

theorem stripPath_lt_dq (t : String) (h : t.data.getLast? = some '"') :
    (stripPath t).data.length < t.data.length :=
  lt_of_le_of_lt
    (le_trans (rstripChar_length_le _ _) (rstripChar_length_le _ _))
    (stripURL_lt_dq t h)

theorem stripPath_lt_semi (t : String) (h : t.data.getLast? = some ';') :
    (stripPath t).data.length < t.data.length := by
  have hu : stripURL t = t := by
    apply stripURL_noop <;>
      · rw [h]
        intro hh
        have := Option.some.inj hh
        first
        | exact absurd this (by decide)
  show (rstripChar (rstripChar (stripURL t) ';') ')').data.length < t.data.length
  rw [hu]
  exact lt_of_le_of_lt (rstripChar_length_le _ _) (rstripChar_length_lt t ';' h)

/-! ### The first-wins dictionary of `extract_variables` -/

/-- `orE a b` is `a` unless `a` is `none`. -/
def orE {α : Type} (a b : Option α) : Option α :=
  match a with
  | some v => some v
  | none => b

theorem lookup_append_single (m : String × String) (n : String) :
    ∀ acc : List (String × String),
      (acc ++ [m]).lookup n = orE (acc.lookup n) (if n == m.1 then some m.2 else none) := by
  intro acc
  induction acc with
  | nil =>
    cases m with
    | mk k v => by_cases h : n == k <;> simp [List.lookup, orE, h]
  | cons a as ih =>
    cases a with
    | mk k v =>
      by_cases h : n == k <;> simp [List.lookup, orE, h, ih]

theorem any_key_eq_isSome (n : String) :
    ∀ acc : List (String × String), acc.any (fun p => p.1 == n) = (acc.lookup n).isSome := by
  intro acc
  induction acc with
  | nil => rfl
  | cons a as ih =>
    cases a with
    | mk k v =>
      by_cases h : k = n
      · subst h
        simp [List.any_cons, List.lookup]
      · have h1 : (k == n) = false := by simp [h]
        have h2 : (n == k) = false := by simp [Ne.symm h]
        simp [List.any_cons, List.lookup, h1, h2, ih]

theorem lookup_foldl_varIns (n : String) :
    ∀ (ms : List (String × String)) (acc : List (String × String)),
      ((ms.foldl varIns acc).lookup n) =
        orE (acc.lookup n) ((ms.find? (fun p => p.1 == n)).map Prod.snd) := by
  intro ms
  induction ms with
  | nil =>
    intro acc
    cases h : acc.lookup n <;> simp [orE, h, List.find?]
  | cons m rest ih =>
    intro acc
    rw [List.foldl_cons, ih]
    by_cases hm : m.1 == n
    · have hm' : m.1 = n := by exact eq_of_beq hm
      have hfind : (m :: rest).find? (fun p => p.1 == n) = some m := by
        simp [List.find?, hm]
      rw [hfind]
      cases ha : acc.lookup n with
      | some v =>
        have hv : (varIns acc m).lookup n = some v := by
          unfold varIns
          split_ifs with hAny
          · exact ha
          · rw [lookup_append_single, ha]
            rfl
        rw [hv]
        rfl
      | none =>
        have hAny : acc.any (fun p => p.1 == m.1) = false := by
          rw [hm', any_key_eq_isSome, ha]
          rfl
        have hv : varIns acc m = acc ++ [m] := by
          unfold varIns
          rw [hAny]
          simp
        have hnm : (n == m.1) = true := by rw [hm']; exact beq_self_eq_true n
        rw [hv, lookup_append_single, ha, hnm]
        rfl
    · have hm' : m.1 ≠ n := by intro h; rw [h] at hm; simp at hm
      have hnm : (n == m.1) = false := by simp [Ne.symm hm']
      have hv : (varIns acc m).lookup n = acc.lookup n := by
        unfold varIns
        split_ifs with hAny
        · rfl
        · rw [lookup_append_single, hnm]
          cases h : acc.lookup n <;> simp [orE]
      have hfind : (m :: rest).find? (fun p => p.1 == n) = rest.find? (fun p => p.1 == n) := by
        have hb : (m.1 == n) = false := by simp [hm']
        simp [List.find?, hb]
      rw [hv, hfind]

/-! ### Claim theorems -/

/-- C1, counterexample: on the Scenario A input the API-Endpoint extractor
does not yield the period-stripped string claimed; the `.php` sub-pattern
keeps the trailing period, so the claimed output is wrong. -/
theorem C1_counterexample :
    extract_api_endpoints "curl https://evil.example/x.php?a=1." ≠
      ["https://evil.example/x.php?a=1"] := by decide

/-- C1, amended: on the Scenario A input the URL extractor yields the URL
with the trailing period stripped, while the API-Endpoint extractor yields
the URL with the trailing period retained (its trailing class consumes the
period and no stripping is applied there). -/
theorem C1_amended_thm :
    extract_urls "curl https://evil.example/x.php?a=1." = ["https://evil.example/x.php?a=1"] ∧
    extract_api_endpoints "curl https://evil.example/x.php?a=1." =
      ["https://evil.example/x.php?a=1."] := by decide

/-- C2, counterexample: the input matches the generic dash-P sub-pattern
with captured value of length 2, yet the Credential extractor produces no
finding at all, contradicting the claim that sub-pattern 2 escapes the
discard rule. -/
theorem C2_counterexample :
    findAllG1 zipPassRE "-P ab" = ["ab"] ∧ extract_credentials "-P ab" = [] := by decide

/-- C2, amended: the discard rule (length at most 2, or the placeholder
values) applies to every sub-pattern of the filtered loop, which includes
sub-pattern 2: no Zip Password finding ever carries such a value.  Only
sub-pattern 1 (sshpass) is exempt: each of its captures becomes an SSH
Password finding unconditionally. -/
theorem C2_amended_thm :
    (∀ (content v : String), (v.length ≤ 2 ∨ v = "alpine" ∨ v = "$password") →
      (⟨"Zip Password", v⟩ : Credential) ∉ extract_credentials content) ∧
    (∀ (content v : String), v ∈ findAllG1 sshRE content →
      (⟨"SSH Password", v⟩ : Credential) ∈ extract_credentials content) := by
  constructor
  · intro content v hv hmem
    unfold extract_credentials at hmem
    rcases List.mem_append.mp hmem with h | h
    · rcases List.mem_map.mp h with ⟨p, _, heq⟩
      have h2 : "SSH Password" = "Zip Password" := congrArg Credential.type heq
      exact absurd h2 (by decide)
    · rcases List.mem_flatMap.mp h with ⟨pt, _, h2⟩
      rcases List.mem_map.mp h2 with ⟨m, hm, heq⟩
      have hmv : m = v := congrArg Credential.value heq
      have hfilter : credFilter m = true := (List.mem_filter.mp hm).2
      subst hmv
      unfold credFilter at hfilter
      rcases hv with hlen | hal | hpw
      · have h3 : decide (2 < m.length) = true := ((Bool.and_eq_true _ _).mp hfilter).1
        have h4 := of_decide_eq_true h3
        omega
      · subst hal
        have h3 := ((Bool.and_eq_true _ _).mp hfilter).2
        simp at h3
      · subst hpw
        have h3 := ((Bool.and_eq_true _ _).mp hfilter).2
        simp at h3
  · intro content v hv
    unfold extract_credentials
    apply List.mem_append_left
    exact List.mem_map_of_mem _ hv

/-- C2, witness for the amended theorem at concrete inputs. -/
theorem C2_amended_witness :
    ((⟨"Zip Password", "ab"⟩ : Credential) ∉ extract_credentials "-P ab") ∧
    (⟨"SSH Password", "ab"⟩ : Credential) ∈ extract_credentials "sshpass -p ab" :=
  ⟨C2_amended_thm.1 "-P ab" "ab" (Or.inl (by decide)),
   C2_amended_thm.2 "sshpass -p ab" "ab" (by decide)⟩

/-- C3, counterexample: on the claimed equals-sign assignment the
declared-password scan extracts nothing (the pattern demands a literal
plus-equals), and even on the plus-equals form the extracted value is not
the bare password token. -/
theorem C3_counterexample :
    (extract_zip_info ("Unzp=" ++ String.mk [squote] ++ "unzip -P secretA archive1.zip" ++
      String.mk [squote])).passwords ≠ ["secretA"] ∧
    (extract_zip_info ("Unzp+=" ++ String.mk [squote] ++ "unzip -P secretA archive1.zip" ++
      String.mk [squote])).passwords ≠ ["secretA"] := by decide

/-- C4, counterexample: the trailing-character stripping rules are not
idempotent; on the two-character string backslash-then-doublequote the
first pass strips the quote and the second pass strips the newly exposed
backslash, for both the URL rule and the path rule. -/
theorem C4_counterexample :
    ¬(stripURL (stripURL "a\\\"") = stripURL "a\\\"" ∧
      stripPath (stripPath "a\\\"") = stripPath "a\\\"") := by decide

/-- C4, amended: applying the URL stripping rule twice equals applying it
once exactly when the once-stripped result does not end in a character
stripped at an earlier stage (backslash or single quote); likewise for the
path rule (backslash, single quote, double quote, or semicolon). -/
theorem C4_amended_thm (s : String) :
    (stripURL (stripURL s) = stripURL s ↔
      ((stripURL s).data.getLast? ≠ some '\\' ∧ (stripURL s).data.getLast? ≠ some squote)) ∧
    (stripPath (stripPath s) = stripPath s ↔
      ((stripPath s).data.getLast? ≠ some '\\' ∧ (stripPath s).data.getLast? ≠ some squote ∧
        (stripPath s).data.getLast? ≠ some '"' ∧ (stripPath s).data.getLast? ≠ some ';')) := by
  constructor
  · constructor
    · intro heq
      constructor
      · intro hbad
        have hlt := stripURL_lt_bs (stripURL s) hbad
        rw [heq] at hlt
        exact lt_irrefl _ hlt
      · intro hbad
        have hlt := stripURL_lt_sq (stripURL s) hbad
        rw [heq] at hlt
        exact lt_irrefl _ hlt
    · intro h
      exact stripURL_noop (stripURL s) h.1 h.2
        (getLast?_rstripChar (rstripChar (rstripChar s '\\') squote) '"')
  · constructor
    · intro heq
      refine ⟨?_, ?_, ?_, ?_⟩
      · intro hbad
        have hlt := stripPath_lt_bs (stripPath s) hbad
        rw [heq] at hlt
        exact lt_irrefl _ hlt
      · intro hbad
        have hlt := stripPath_lt_sq (stripPath s) hbad
        rw [heq] at hlt
        exact lt_irrefl _ hlt
      · intro hbad
        have hlt := stripPath_lt_dq (stripPath s) hbad
        rw [heq] at hlt
        exact lt_irrefl _ hlt
      · intro hbad
        have hlt := stripPath_lt_semi (stripPath s) hbad
        rw [heq] at hlt
        exact lt_irrefl _ hlt
    · intro h
      exact stripPath_noop (stripPath s) h.1 h.2.1 h.2.2.1 h.2.2.2
        (getLast?_rstripChar (rstripChar (stripURL s) ';') ')')

/-- Predicate of the dedup invariant: no duplicates and ascending
lexicographic order. -/
def distinctSorted (l : List String) : Prop := l.Nodup ∧ l.Sorted (· ≤ ·)

/-- C5: every deduplicated category (URLs, Domains, API-Endpoints,
File-Paths, Device-IDs, Zip-Passwords, Zip-Files) is free of duplicates
and lexicographically sorted in ascending order, on every input. -/
theorem C5_thm (content : String) :
    distinctSorted (extract_urls content) ∧ distinctSorted (extract_domains content) ∧
    distinctSorted (extract_api_endpoints content) ∧
    distinctSorted (extract_file_paths content) ∧
    distinctSorted (extract_device_ids content) ∧
    distinctSorted ((extract_zip_info content).passwords) ∧
    distinctSorted ((extract_zip_info content).zip_files) := by
  refine ⟨?_, ?_, ?_, ?_, ?_, ?_, ?_⟩ <;>
    exact ⟨sorted_lt_nodup (sortedDedup_sorted _), sorted_lt_le (sortedDedup_sorted _)⟩

/-- C6: the Variable extractor mapping holds exactly the value of the
first assignment to a name found by the scan; later assignments to the
same name leave the mapping unchanged. -/
theorem C6_thm (content : String) (n : String) :
    (extract_variables content).lookup n =
      ((findAllG2LS varRE content).find? (fun p => p.1 == n)).map Prod.snd := by
  show ((findAllG2LS varRE content).foldl varIns []).lookup n = _
  rw [lookup_foldl_varIns]
  rfl

/-- Property of a capped command list: it is the cap-length prefix of the
sorted deduplicated match set, so it never exceeds the cap and retains
exactly the lexicographically smallest entries. -/
def cappedBy (out : List String) (ms : List String) (cap : Nat) : Prop :=
  out = (sortedDedup ms).take cap ∧ out.length ≤ cap ∧ (∀ x ∈ out, x ∈ ms) ∧
    ∀ x ∈ out, ∀ y ∈ ms, y ∉ out → x < y

theorem cappedBy_take (ms : List String) (cap : Nat) :
    cappedBy ((sortedDedup ms).take cap) ms cap := by
  refine ⟨rfl, ?_, ?_, ?_⟩
  · rw [List.length_take]
    exact min_le_left _ _
  · intro x hx
    exact (mem_sortedDedup x ms).mp (List.take_subset _ _ hx)
  · intro x hx y hy hyn
    exact sorted_take_lt (sortedDedup_sorted ms) cap hx ((mem_sortedDedup y ms).mpr hy) hyn

/-- C7: each Command sub-category is the truncation, after sort and dedup,
of its match set to its cap (50, 20, 30, 30): within the cap, no
duplicates, and exactly the lexicographically smallest entries retained. -/
theorem C7_thm (content : String) :
    cappedBy (extract_commands content).curl_commands (findAllStr curlRE content) 50 ∧
    cappedBy (extract_commands content).ssh_commands (findAllStr sshCmdRE content) 20 ∧
    cappedBy (extract_commands content).irecovery_commands (findAllStr irecRE content) 30 ∧
    cappedBy (extract_commands content).other_tools (findAllStr toolsRE content) 30 :=
  ⟨cappedBy_take _ _, cappedBy_take _ _, cappedBy_take _ _, cappedBy_take _ _⟩

/-- C8: on the Scenario B input the Zip-Info detailed pairs contain the
pair of file payload.zip with password hunter2, and the Credential
extractor yields a Zip Password finding with value hunter2. -/
theorem C8_thm :
    (⟨"payload.zip", "hunter2"⟩ : ZipPair) ∈
      (extract_zip_info "unzip -P hunter2 payload.zip").detailed ∧
    (⟨"Zip Password", "hunter2"⟩ : Credential) ∈
      extract_credentials "unzip -P hunter2 payload.zip" := by decide

/-- C9, counterexample: the program decodes with the ignore policy, not by
lossy substitution: on input bytes containing an invalid byte inside a
device identifier, the produced report finds the identifier, while
substitution decoding would break the token and find none. -/
theorem C9_counterexample :
    ((runMain "nattramn_payload.sh"
        (some [105, 80, 104, 111, 110, 101, 255, 49, 48, 44, 54])).report.map
      Report.device_ids) = some ["iPhone10,6"] ∧
    extract_device_ids (pyDecode true [105, 80, 104, 111, 110, 101, 255, 49, 48, 44, 54]) =
      [] := by decide

/-- C9, amended: a missing input file is reported on the error stream and
the run ends with exit status 1 and no report; any present byte content is
decoded with the ignore policy (undecodable bytes dropped), never fails,
and always yields the full report with exit status 0. -/
theorem C9_amended_thm :
    (∀ script : String, (runMain script none).exitCode = 1 ∧
      (runMain script none).report = none ∧ (runMain script none).stderrLines ≠ []) ∧
    (∀ (script : String) (bytes : List Nat), (runMain script (some bytes)).exitCode = 0 ∧
      (runMain script (some bytes)).stderrLines = [] ∧
      (runMain script (some bytes)).report = some (buildReport (pyDecode false bytes))) := by
  constructor
  · intro script
    refine ⟨rfl, rfl, ?_⟩
    simp [runMain]
  · intro script bytes
    exact ⟨rfl, rfl, rfl⟩

/-! ### Engine lemmas: every match consumes a prefix of the input -/

theorem matchSeq_decomp :
    ∀ (ps : List (Char → Bool)) (rest : List Char) (pr : List Char × List Char),
      matchSeq ps rest = some pr → pr.1 ++ pr.2 = rest := by
  intro ps
  induction ps with
  | nil =>
    intro rest pr h
    simp only [matchSeq, Option.some.injEq] at h
    rw [← h]
    rfl
  | cons p ps ih =>
    intro rest pr h
    cases rest with
    | nil => simp [matchSeq] at h
    | cons c rs =>
      rw [matchSeq] at h
      by_cases hc : p c
      · rw [if_pos hc] at h
        cases hms : matchSeq ps rs with
        | none => rw [hms] at h; simp at h
        | some pr2 =>
          rw [hms] at h
          simp only [Option.map_some', Option.some.injEq] at h
          have h2 := ih rs pr2 hms
          rw [← h]
          simp only [List.cons_append, List.cons.injEq, true_and]
          exact h2
      · rw [if_neg hc] at h
        simp at h

theorem run_decomp :
    ∀ (re : RE) (rest : List Char) (cp : Caps) (x : List Char × List Char × Caps),
      x ∈ RE.run re rest cp → x.1 ++ x.2.1 = rest := by
  intro re
  induction re with
  | seq ps =>
    intro rest cp x hx
    simp only [RE.run] at hx
    cases hms : matchSeq ps rest with
    | none => rw [hms] at hx; simp at hx
    | some pr =>
      rw [hms] at hx
      simp only [List.mem_singleton] at hx
      rw [hx]
      exact matchSeq_decomp ps rest pr hms
  | starG p =>
    intro rest cp x hx
    simp only [RE.run, List.mem_map, List.mem_reverse, List.mem_range] at hx
    obtain ⟨k, _, rfl⟩ := hx
    exact List.take_append_drop k rest
  | starL p =>
    intro rest cp x hx
    simp only [RE.run, List.mem_map, List.mem_range] at hx
    obtain ⟨k, _, rfl⟩ := hx
    exact List.take_append_drop k rest
  | opt p =>
    intro rest cp x hx
    cases rest with
    | nil =>
      simp only [RE.run, List.nil_append, List.mem_singleton] at hx
      rw [hx]
      rfl
    | cons c rs =>
      simp only [RE.run] at hx
      rcases List.mem_append.mp hx with h | h
      · by_cases hc : p c
        · rw [if_pos hc] at h
          simp only [List.mem_singleton] at h
          rw [h]
          rfl
        · rw [if_neg hc] at h
          simp at h
      · simp only [List.mem_singleton] at h
        rw [h]
        rfl
  | alt a b iha ihb =>
    intro rest cp x hx
    rcases List.mem_append.mp hx with h | h
    · exact iha rest cp x h
    · exact ihb rest cp x h
  | cat a b iha ihb =>
    intro rest cp x hx
    simp only [RE.run, List.mem_flatMap, List.mem_map] at hx
    obtain ⟨u, hu, y, hy, rfl⟩ := hx
    have h1 := iha rest cp u hu
    have h2 := ihb u.2.1 u.2.2 y hy
    show (u.1 ++ y.1) ++ y.2.1 = rest
    rw [List.append_assoc, h2, h1]
  | grp i r ihr =>
    intro rest cp x hx
    simp only [RE.run, List.mem_map] at hx
    obtain ⟨u, hu, rfl⟩ := hx
    exact ihr rest cp u hu

theorem tryMatch_decomp {re : RE} {rest : List Char} {x : List Char × List Char × Caps}
    (h : tryMatch re rest = some x) : x.1 ++ x.2.1 = rest := by
  apply run_decomp re rest noCaps
  unfold tryMatch at h
  cases hr : RE.run re rest noCaps with
  | nil => rw [hr] at h; simp at h
  | cons a l =>
    rw [hr] at h
    simp only [List.head?, Option.some.injEq] at h
    rw [← h]
    exact List.mem_cons_self a l

/-! ### Engine lemmas: the scan at canonical fuel and its equations -/

theorem scanAux_succ (re : RE) (ls : Bool) (fuel : Nat) (rest : List Char) (atLS : Bool) :
    scanAux re ls (fuel + 1) rest atLS =
      match (if ls && !atLS then none else tryMatch re rest) with
      | some ([], _, cp) =>
          ([], cp) :: (match rest with
            | [] => []
            | c :: rs => scanAux re ls fuel rs (c == Char.ofNat 10))
      | some (c :: con, rest2, cp) =>
          (c :: con, cp) :: scanAux re ls fuel rest2 (List.getLastD con c == Char.ofNat 10)
      | none =>
          match rest with
          | [] => []
          | c :: rs => scanAux re ls fuel rs (c == Char.ofNat 10) := rfl

theorem scanAux_fuel (re : RE) (ls : Bool) :
    ∀ (f1 f2 : Nat) (rest : List Char) (atLS : Bool),
      rest.length < f1 → rest.length < f2 →
      scanAux re ls f1 rest atLS = scanAux re ls f2 rest atLS := by
  intro f1
  induction f1 with
  | zero =>
    intro f2 rest atLS h1 _
    exact absurd h1 (Nat.not_lt_zero _)
  | succ k ih =>
    intro f2 rest atLS h1 h2
    cases f2 with
    | zero => exact absurd h2 (Nat.not_lt_zero _)
    | succ m =>
      rw [scanAux_succ, scanAux_succ]
      cases hatt : (if ls && !atLS then none else tryMatch re rest) with
      | none =>
        cases rest with
        | nil => rfl
        | cons c rs =>
          have hlen : rs.length < k := by
            simp only [List.length_cons] at h1
            omega
          have hlen2 : rs.length < m := by
            simp only [List.length_cons] at h2
            omega
          show scanAux re ls k rs (c == Char.ofNat 10) = scanAux re ls m rs (c == Char.ofNat 10)
          exact ih m rs (c == Char.ofNat 10) hlen hlen2
      | some x =>
        obtain ⟨con, rest2, cp⟩ := x
        cases con with
        | nil =>
          cases rest with
          | nil => rfl
          | cons c rs =>
            have hlen : rs.length < k := by
              simp only [List.length_cons] at h1
              omega
            have hlen2 : rs.length < m := by
              simp only [List.length_cons] at h2
              omega
            show ([], cp) :: scanAux re ls k rs (c == Char.ofNat 10) =
              ([], cp) :: scanAux re ls m rs (c == Char.ofNat 10)
            rw [ih m rs (c == Char.ofNat 10) hlen hlen2]
        | cons c cs =>
          have htm : tryMatch re rest = some (c :: cs, rest2, cp) := by
            cases hb : ls && !atLS
            · rw [hb] at hatt
              simpa using hatt
            · rw [hb] at hatt
              simp at hatt
          have hdec : (c :: cs) ++ rest2 = rest := tryMatch_decomp htm
          have hlt : rest2.length < rest.length := by
            rw [← hdec]
            simp only [List.length_append, List.length_cons]
            omega
          show (c :: cs, cp) :: scanAux re ls k rest2 (List.getLastD cs c == Char.ofNat 10) =
            (c :: cs, cp) :: scanAux re ls m rest2 (List.getLastD cs c == Char.ofNat 10)
          rw [ih m rest2 (List.getLastD cs c == Char.ofNat 10) (by omega) (by omega)]

theorem scanFrom_nil (re : RE) (ls : Bool) (atLS : Bool) (h : tryMatch re [] = none) :
    scanFrom re ls [] atLS = [] := by
  show scanAux re ls 1 [] atLS = []
  rw [show (1 : Nat) = 0 + 1 from rfl, scanAux_succ]
  cases hb : ls && !atLS
  · simp [h]
  · simp

theorem scanFrom_skip (re : RE) (ls : Bool) (c : Char) (rs : List Char) (atLS : Bool)
    (h : (if ls && !atLS then none else tryMatch re (c :: rs)) = none) :
    scanFrom re ls (c :: rs) atLS = scanFrom re ls rs (c == Char.ofNat 10) := by
  show scanAux re ls ((c :: rs).length + 1) (c :: rs) atLS = scanAux re ls (rs.length + 1) rs _
  have hl : (c :: rs).length + 1 = (rs.length + 1) + 1 := by simp
  rw [hl, scanAux_succ, h]

theorem scanFrom_match (re : RE) (ls : Bool) (rest : List Char) (atLS : Bool)
    (c : Char) (con : List Char) (rest2 : List Char) (cp : Caps)
    (hb : (ls && !atLS) = false)
    (h : tryMatch re rest = some (c :: con, rest2, cp)) :
    scanFrom re ls rest atLS =
      (c :: con, cp) :: scanFrom re ls rest2 (List.getLastD con c == Char.ofNat 10) := by
  have hdec : (c :: con) ++ rest2 = rest := tryMatch_decomp h
  have hlt : rest2.length < rest.length := by
    rw [← hdec]
    simp only [List.length_append, List.length_cons]
    omega
  show scanAux re ls (rest.length + 1) rest atLS = _
  have hpos : rest.length + 1 = (rest.length - 1 + 1) + 1 := by omega
  rw [hpos, scanAux_succ, hb]
  simp only [Bool.false_eq_true, if_false, h]
  show (c :: con, cp) :: scanAux re ls (rest.length - 1 + 1) rest2
      (List.getLastD con c == Char.ofNat 10) = _
  rw [scanAux_fuel re ls (rest.length - 1 + 1) (rest2.length + 1) rest2
    (List.getLastD con c == Char.ofNat 10) (by omega) (by omega)]
  rfl

/-! ### Engine lemmas: computing runs on inputs with a symbolic part -/

/-- Check a list of one-character patterns against exactly the list `l`. -/
def psOK : List (Char → Bool) → List Char → Bool
  | [], [] => true
  | p :: ps, c :: cs => p c && psOK ps cs
  | _, _ => false

theorem matchSeq_psOK :
    ∀ (ps : List (Char → Bool)) (l t : List Char), psOK ps l = true →
      matchSeq ps (l ++ t) = some (l, t) := by
  intro ps
  induction ps with
  | nil =>
    intro l t h
    cases l with
    | nil => rfl
    | cons c cs => simp [psOK] at h
  | cons p ps ih =>
    intro l t h
    cases l with
    | nil => simp [psOK] at h
    | cons c cs =>
      rw [psOK, Bool.and_eq_true] at h
      show matchSeq (p :: ps) (c :: (cs ++ t)) = _
      rw [matchSeq, if_pos h.1, ih cs t h.2]
      rfl

theorem run_seq_psOK (ps : List (Char → Bool)) (l t : List Char) (cp : Caps)
    (h : psOK ps l = true) :
    RE.run (.seq ps) (l ++ t) cp = [(l, t, cp)] := by
  simp only [RE.run, matchSeq_psOK ps l t h]

theorem takeWhile_nil_of_head (p : Char → Bool) :
    ∀ l : List Char, (∀ c ∈ l.take 1, p c = false) → l.takeWhile p = [] := by
  intro l h
  cases l with
  | nil => rfl
  | cons c cs =>
    rw [List.takeWhile_cons, h c (by simp)]
    simp

theorem takeWhile_append_all (p : Char → Bool) :
    ∀ (l t : List Char), (∀ c ∈ l, p c = true) → (l ++ t).takeWhile p = l ++ t.takeWhile p := by
  intro l
  induction l with
  | nil => intro t _; rfl
  | cons c cs ih =>
    intro t h
    show (c :: (cs ++ t)).takeWhile p = _
    rw [List.takeWhile_cons, h c (by simp), ih t (fun x hx => h x (by simp [hx]))]
    rfl

theorem dropWhile_append_all (p : Char → Bool) :
    ∀ (l t : List Char), (∀ c ∈ l, p c = true) → (l ++ t).dropWhile p = t.dropWhile p := by
  intro l
  induction l with
  | nil => intro t _; rfl
  | cons c cs ih =>
    intro t h
    show (c :: (cs ++ t)).dropWhile p = _
    rw [List.dropWhile_cons, if_pos (h c (by simp))]
    exact ih t (fun x hx => h x (by simp [hx]))

theorem dropWhile_nil_of_head (p : Char → Bool) :
    ∀ l : List Char, (∀ c ∈ l.take 1, p c = false) → l.dropWhile p = l := by
  intro l h
  cases l with
  | nil => rfl
  | cons c cs =>
    rw [List.dropWhile_cons, h c (by simp)]
    simp

theorem take_takeWhile_length (p : Char → Bool) :
    ∀ l : List Char, l.take (l.takeWhile p).length = l.takeWhile p := by
  intro l
  induction l with
  | nil => rfl
  | cons c cs ih =>
    rw [List.takeWhile_cons]
    by_cases hc : p c
    · rw [if_pos hc]
      simp only [List.length_cons, List.take_succ_cons, List.cons.injEq, true_and]
      exact ih
    · rw [if_neg hc]
      rfl

theorem drop_takeWhile_length (p : Char → Bool) :
    ∀ l : List Char, l.drop (l.takeWhile p).length = l.dropWhile p := by
  intro l
  induction l with
  | nil => rfl
  | cons c cs ih =>
    rw [List.takeWhile_cons, List.dropWhile_cons]
    by_cases hc : p c
    · rw [if_pos hc, if_pos hc]
      simp only [List.length_cons, List.drop_succ_cons]
      exact ih
    · rw [if_neg hc, if_neg hc]
      rfl

theorem run_starG_eq (p : Char → Bool) (rest : List Char) (cp : Caps) :
    RE.run (.starG p) rest cp =
      (rest.takeWhile p, rest.dropWhile p, cp) ::
        (List.range (rest.takeWhile p).length).reverse.map
          (fun k => (rest.take k, rest.drop k, cp)) := by
  simp only [RE.run]
  rw [List.range_succ, List.reverse_append]
  simp only [List.reverse_cons, List.reverse_nil, List.nil_append, List.singleton_append,
    List.map_cons]
  rw [take_takeWhile_length, drop_takeWhile_length]

theorem run_starG_nil (p : Char → Bool) (rest : List Char) (cp : Caps)
    (h : ∀ c ∈ rest.take 1, p c = false) :
    RE.run (.starG p) rest cp = [([], rest, cp)] := by
  rw [run_starG_eq, takeWhile_nil_of_head p rest h, dropWhile_nil_of_head p rest h]
  rfl

theorem run_cat_eq (a b : RE) (rest : List Char) (cp : Caps) :
    RE.run (.cat a b) rest cp =
      (RE.run a rest cp).flatMap
        (fun x => (RE.run b x.2.1 x.2.2).map (fun y => (x.1 ++ y.1, y.2.1, y.2.2))) := rfl

theorem run_cat_single (a b : RE) (rest : List Char) (cp : Caps)
    (c1 : List Char) (r1 : List Char) (cp1 : Caps)
    (h : RE.run a rest cp = [(c1, r1, cp1)]) :
    RE.run (.cat a b) rest cp =
      (RE.run b r1 cp1).map (fun y => (c1 ++ y.1, y.2.1, y.2.2)) := by
  rw [run_cat_eq, h]
  simp

theorem run_cat_head (a b : RE) (rest : List Char) (cp : Caps)
    {x1 x2 : List Char} {x3 : Caps} {xs : List (List Char × List Char × Caps)}
    {y1 y2 : List Char} {y3 : Caps} {ys : List (List Char × List Char × Caps)}
    (ha : RE.run a rest cp = (x1, x2, x3) :: xs)
    (hb : RE.run b x2 x3 = (y1, y2, y3) :: ys) :
    ∃ zs, RE.run (.cat a b) rest cp = (x1 ++ y1, y2, y3) :: zs := by
  rw [run_cat_eq, ha, List.flatMap_cons, hb, List.map_cons, List.cons_append]
  exact ⟨_, rfl⟩

theorem run_grp_head (i : Nat) (r : RE) (rest : List Char) (cp : Caps)
    {x1 x2 : List Char} {x3 : Caps} {xs : List (List Char × List Char × Caps)}
    (h : RE.run r rest cp = (x1, x2, x3) :: xs) :
    ∃ zs, RE.run (.grp i r) rest cp = (x1, x2, setCap i x1 x3) :: zs := by
  simp only [RE.run, h, List.map_cons]
  exact ⟨_, rfl⟩

/-! ### Engine lemmas: greedy backtracking through a star -/

theorem flatMap_desc {α : Type} (F : Nat → List α) :
    ∀ (m k0 : Nat), k0 ≤ m → (∀ k, k0 < k → k ≤ m → F k = []) →
      ((List.range (m + 1)).reverse.flatMap F) =
        F k0 ++ (List.range k0).reverse.flatMap F := by
  intro m
  induction m with
  | zero =>
    intro k0 h1 _
    have hk : k0 = 0 := Nat.le_zero.mp h1
    subst hk
    rfl
  | succ m ih =>
    intro k0 h1 h2
    rw [List.range_succ, List.reverse_append]
    simp only [List.reverse_cons, List.reverse_nil, List.nil_append, List.singleton_append,
      List.flatMap_cons]
    by_cases hk : k0 = m + 1
    · subst hk
      rfl
    · have hk2 : k0 ≤ m := by omega
      rw [h2 (m + 1) (by omega) (le_refl _), ih k0 hk2 (fun k a b => h2 k a (by omega))]
      rfl

theorem run_headFail (p : Char → Bool) (ps : List (Char → Bool)) (b : RE) (cp : Caps) :
    ∀ t : List Char, (∀ c ∈ t.take 1, p c = false) →
      RE.run (.cat (.seq (p :: ps)) b) t cp = [] := by
  intro t h
  cases t with
  | nil =>
    rw [run_cat_eq]
    simp [RE.run, matchSeq]
  | cons c cs =>
    rw [run_cat_eq]
    have hc : p c = false := h c (by simp)
    simp [RE.run, matchSeq, hc]

theorem run_cat_starG (p : Char → Bool) (b : RE) (rest : List Char) (cp : Caps) (k0 : Nat)
    (hk : k0 ≤ (rest.takeWhile p).length)
    {y1 y2 : List Char} {y3 : Caps} {ys : List (List Char × List Char × Caps)}
    (hy : RE.run b (rest.drop k0) cp = (y1, y2, y3) :: ys)
    (hfail : ∀ k, k0 < k → k ≤ (rest.takeWhile p).length → RE.run b (rest.drop k) cp = []) :
    ∃ zs, RE.run (.cat (.starG p) b) rest cp =
      (rest.take k0 ++ y1, y2, y3) :: zs := by
  rw [run_cat_eq]
  simp only [RE.run]
  rw [List.flatMap_map]
  have hdesc := flatMap_desc
    (fun k => (RE.run b (rest.drop k) cp).map (fun y => (rest.take k ++ y.1, y.2.1, y.2.2)))
    (rest.takeWhile p).length k0 hk
    (fun k a bb => by
      show (RE.run b (rest.drop k) cp).map _ = []
      rw [hfail k a bb]
      rfl)
  show ∃ zs,
    ((List.range ((rest.takeWhile p).length + 1)).reverse.flatMap
      (fun k => (RE.run b (rest.drop k) cp).map (fun y => (rest.take k ++ y.1, y.2.1, y.2.2)))) =
      (rest.take k0 ++ y1, y2, y3) :: zs
  rw [hdesc]
  simp only [hy, List.map_cons, List.cons_append]
  exact ⟨_, rfl⟩

theorem tryMatch_headFail (p : Char → Bool) (ps : List (Char → Bool)) (b : RE) :
    ∀ t : List Char, (∀ c ∈ t.take 1, p c = false) →
      tryMatch (.cat (.seq (p :: ps)) b) t = none := by
  intro t h
  unfold tryMatch
  rw [run_headFail p ps b noCaps t h]
  rfl

theorem tryMatch_fail_on_drops (p : Char → Bool) (ps : List (Char → Bool)) (b : RE)
    (rest : List Char) (h : ∀ c ∈ rest, p c = false) :
    ∀ n, tryMatch (.cat (.seq (p :: ps)) b) (rest.drop n) = none := by
  intro n
  apply tryMatch_headFail
  intro c hc
  exact h c (List.drop_subset n rest (List.take_subset 1 _ hc))

theorem scanFrom_fail_all (re : RE) (ls : Bool) :
    ∀ rest : List Char, (∀ n : Nat, tryMatch re (rest.drop n) = none) →
      ∀ atLS, scanFrom re ls rest atLS = [] := by
  intro rest
  induction rest with
  | nil =>
    intro h atLS
    exact scanFrom_nil re ls atLS (h 0)
  | cons c rs ih =>
    intro h atLS
    rw [scanFrom_skip re ls c rs atLS]
    · exact ih (fun n => h (n + 1)) (c == Char.ofNat 10)
    · cases hb : ls && !atLS
      · simpa using h 0
      · simp

/-! ### Composition helpers for computing full matches -/

theorem takeWhile_all (p : Char → Bool) (l : List Char) (h : ∀ c ∈ l, p c = true) :
    l.takeWhile p = l := by
  have h2 := takeWhile_append_all p l [] h
  simpa using h2

theorem dropWhile_all (p : Char → Bool) (l : List Char) (h : ∀ c ∈ l, p c = true) :
    l.dropWhile p = [] := by
  have h2 := dropWhile_append_all p l [] h
  simpa using h2

theorem run_cat_litlike (ps : List (Char → Bool)) (l : List Char) {b : RE} {t : List Char}
    {cp : Caps} {y1 y2 : List Char} {y3 : Caps} {ys : List (List Char × List Char × Caps)}
    (hps : psOK ps l = true) (hy : RE.run b t cp = (y1, y2, y3) :: ys) :
    ∃ zs, RE.run (.cat (.seq ps) b) (l ++ t) cp = (l ++ y1, y2, y3) :: zs :=
  run_cat_head (.seq ps) b (l ++ t) cp (run_seq_psOK ps l t cp hps) hy

theorem run_cat_space {b : RE} {t : List Char} {cp : Caps}
    {y1 y2 : List Char} {y3 : Caps} {ys : List (List Char × List Char × Caps)}
    (hsp1 : ∀ c ∈ t.take 1, pySpace c = false)
    (hy : RE.run b t cp = (y1, y2, y3) :: ys) :
    ∃ zs, RE.run (.cat (plus pySpace) b) (' ' :: t) cp = (' ' :: y1, y2, y3) :: zs := by
  have hcls : RE.run (cls pySpace) (' ' :: t) cp = [([' '], t, cp)] := by
    have h2 := run_seq_psOK [pySpace] [' '] t cp (by decide)
    simpa using h2
  have hstar := run_starG_nil pySpace t cp hsp1
  have hplus : RE.run (plus pySpace) (' ' :: t) cp = [([' '], t, cp)] := by
    show RE.run (.cat (cls pySpace) (.starG pySpace)) (' ' :: t) cp = [([' '], t, cp)]
    rw [run_cat_single (cls pySpace) (.starG pySpace) (' ' :: t) cp [' '] t cp hcls, hstar]
    rfl
  have h3 := run_cat_head (plus pySpace) b (' ' :: t) cp hplus hy
  exact h3

theorem run_grpPlus_end (i : Nat) (q : Char → Bool) (c0 : Char) (cs0 : List Char) (cp : Caps)
    (hq : ∀ c ∈ c0 :: cs0, q c = true) :
    ∃ zs, RE.run (.cat (.grp i (plus q)) (.seq [])) (c0 :: cs0) cp =
      (c0 :: cs0, [], setCap i (c0 :: cs0) cp) :: zs := by
  have hcls : RE.run (cls q) (c0 :: cs0) cp = [([c0], cs0, cp)] := by
    have h2 := run_seq_psOK [q] [c0] cs0 cp (by simp [psOK, hq c0 (by simp)])
    simpa using h2
  obtain ⟨ts, hstar⟩ : ∃ ts, RE.run (.starG q) cs0 cp = (cs0, [], cp) :: ts :=
    ⟨_, by rw [run_starG_eq, takeWhile_all q cs0 (fun c hc => hq c (by simp [hc])),
      dropWhile_all q cs0 (fun c hc => hq c (by simp [hc]))]⟩
  obtain ⟨us, hplus⟩ : ∃ us, RE.run (plus q) (c0 :: cs0) cp = (c0 :: cs0, [], cp) :: us := by
    have h2 := run_cat_head (cls q) (.starG q) (c0 :: cs0) cp hcls hstar
    exact h2
  obtain ⟨vs, hgrp⟩ := run_grp_head i (plus q) (c0 :: cs0) cp hplus
  have hseq : RE.run (.seq []) ([] : List Char) (setCap i (c0 :: cs0) cp) =
      [([], [], setCap i (c0 :: cs0) cp)] := rfl
  obtain ⟨zs, hz⟩ := run_cat_head (.grp i (plus q)) (.seq []) (c0 :: cs0) cp hgrp hseq
  refine ⟨zs, ?_⟩
  rw [hz]
  simp

theorem headFail1 (p : Char → Bool) {ps : List (Char → Bool)} {b : RE} (c : Char)
    (rs : List Char) (h : p c = false) :
    tryMatch (.cat (.seq (p :: ps)) b) (c :: rs) = none := by
  apply tryMatch_headFail
  intro x hx
  have hxc : x = c := by simpa using hx
  rw [hxc]
  exact h

theorem skip_nols {re : RE} (c : Char) (rs : List Char) (atLS : Bool)
    (h : tryMatch re (c :: rs) = none) :
    scanFrom re false (c :: rs) atLS = scanFrom re false rs (c == Char.ofNat 10) := by
  apply scanFrom_skip
  simpa using h

theorem match_nols {re : RE} {rest : List Char} (atLS : Bool) {c : Char} {con : List Char}
    {rest2 : List Char} {cp : Caps}
    (h : tryMatch re rest = some (c :: con, rest2, cp)) :
    scanFrom re false rest atLS =
      (c :: con, cp) :: scanFrom re false rest2 (List.getLastD con c == Char.ofNat 10) :=
  scanFrom_match re false rest atLS c con rest2 cp (by simp) h

/-- C10, counterexample: the quantification over every input containing
the sshpass phrase fails, because an earlier overlapping sshpass match can
consume the text: this input contains the phrase with token tok, yet no
SSH Password finding with value tok is produced. -/
theorem C10_counterexample :
    (⟨"SSH Password", "tok"⟩ : Credential) ∉
      extract_credentials ("sshpass -p " ++ "sshpass -p tok") ∧
    2 < ("tok" : String).length ∧ ("tok" : String) ≠ "alpine" ∧
    ("tok" : String) ≠ "$password" := by decide

/-- C10, amended: for every input consisting of the text sshpass space
dash p space followed by a token without whitespace or the characters
semicolon, pipe, ampersand, of length over 2 and not a placeholder value,
the Credential extractor produces two findings for that token: one tagged
SSH Password and one tagged Zip Password, the latter because the generic
dash P sub-pattern is case-insensitive and also matches the lowercase
dash p flag. -/
theorem C10_amended_thm (tok : List Char)
    (hlen : 2 < tok.length)
    (hcls : ∀ c ∈ tok, zipPassCls c = true)
    (hal : String.mk tok ≠ "alpine") (hpw : String.mk tok ≠ "$password") :
    (⟨"SSH Password", String.mk tok⟩ : Credential) ∈
      extract_credentials (String.mk ("sshpass -p ".data ++ tok)) ∧
    (⟨"Zip Password", String.mk tok⟩ : Credential) ∈
      extract_credentials (String.mk ("sshpass -p ".data ++ tok)) := by
  have hsp : ∀ c ∈ tok, pySpace c = false := by
    intro c hc
    have h2 := hcls c hc
    unfold zipPassCls at h2
    cases hp : pySpace c
    · rfl
    · rw [hp] at h2
      simp at h2
  have hns : ∀ c ∈ tok, nonSpace c = true := by
    intro c hc
    unfold nonSpace
    rw [hsp c hc]
    rfl
  cases tok with
  | nil => simp at hlen
  | cons c0 cs0 =>
    -- stage 5: the capture group runs to the end of the input
    obtain ⟨zs5, h5⟩ := run_grpPlus_end 1 nonSpace c0 cs0 noCaps (fun c hc => hns c hc)
    -- stage 4: the whitespace before the token
    obtain ⟨zs4, h4⟩ := run_cat_space
      (fun c hc => hsp c (List.take_subset 1 _ hc)) h5
    -- stage 3: the literal dash p
    obtain ⟨zs3, h3⟩ := run_cat_litlike ("-p".data.map (fun a => fun c => c == a))
      "-p".data (by decide) h4
    -- stage 2: the whitespace after sshpass
    obtain ⟨zs2, h2⟩ := run_cat_space
      (by
        intro c hc
        rw [show ("-p".data ++ (' ' :: (c0 :: cs0))).take 1 = ['-'] from rfl] at hc
        have hc2 : c = '-' := by simpa using hc
        rw [hc2]
        decide) h3
    -- stage 1: the literal sshpass
    obtain ⟨zs1, h1⟩ := run_cat_litlike ("sshpass".data.map (fun a => fun c => c == a))
      "sshpass".data (by decide) h2
    have h1A : RE.run sshRE ("sshpass -p ".data ++ (c0 :: cs0)) noCaps =
        ("sshpass -p ".data ++ (c0 :: cs0), [], (some (c0 :: cs0), none)) :: zs1 := h1
    have htmA : tryMatch sshRE ("sshpass -p ".data ++ (c0 :: cs0)) =
        some ('s' :: ("shpass -p ".data ++ (c0 :: cs0)), [], (some (c0 :: cs0), none)) := by
      show (RE.run sshRE ("sshpass -p ".data ++ (c0 :: cs0)) noCaps).head? = _
      rw [h1A]
      rfl
    have hscanA : findAllC sshRE false (String.mk ("sshpass -p ".data ++ (c0 :: cs0))) =
        [('s' :: ("shpass -p ".data ++ (c0 :: cs0)), (some (c0 :: cs0), none))] := by
      show scanFrom sshRE false ("sshpass -p ".data ++ (c0 :: cs0)) true = _
      rw [match_nols true htmA, scanFrom_nil sshRE false _ rfl]
    have hG1A : findAllG1 sshRE (String.mk ("sshpass -p ".data ++ (c0 :: cs0))) =
        [String.mk (c0 :: cs0)] := by
      unfold findAllG1
      rw [hscanA]
      rfl
    -- the case-insensitive dash P scan
    obtain ⟨zs5b, h5b⟩ := run_grpPlus_end 1 zipPassCls c0 cs0 noCaps (fun c hc => hcls c hc)
    obtain ⟨zs4b, h4b⟩ := run_cat_space
      (fun c hc => hsp c (List.take_subset 1 _ hc)) h5b
    obtain ⟨zs3b, h3b⟩ := run_cat_litlike [fun c => c == 'p' || c == 'P'] ['p']
      (by decide) h4b
    obtain ⟨zs2b, h2b⟩ := run_cat_litlike ("-".data.map (fun a => fun c => c == a))
      "-".data (by decide) h3b
    have h2B : RE.run zipPassRE ("-p ".data ++ (c0 :: cs0)) noCaps =
        ("-p ".data ++ (c0 :: cs0), [], (some (c0 :: cs0), none)) :: zs2b := h2b
    have htmB : tryMatch zipPassRE ("-p ".data ++ (c0 :: cs0)) =
        some ('-' :: ("p ".data ++ (c0 :: cs0)), [], (some (c0 :: cs0), none)) := by
      show (RE.run zipPassRE ("-p ".data ++ (c0 :: cs0)) noCaps).head? = _
      rw [h2B]
      rfl
    have hscanB : findAllC zipPassRE false (String.mk ("sshpass -p ".data ++ (c0 :: cs0))) =
        [('-' :: ("p ".data ++ (c0 :: cs0)), (some (c0 :: cs0), none))] := by
      show scanFrom zipPassRE false ("sshpass -p ".data ++ (c0 :: cs0)) true = _
      rw [show ("sshpass -p ".data ++ (c0 :: cs0)) =
        's' :: ('s' :: ('h' :: ('p' :: ('a' :: ('s' :: ('s' :: (' ' ::
          ("-p ".data ++ (c0 :: cs0))))))))) from rfl]
      have hs0 : tryMatch zipPassRE ('s' :: ('s' :: ('h' :: ('p' :: ('a' :: ('s' :: ('s' ::
        (' ' :: ("-p ".data ++ (c0 :: cs0)))))))))) = none := rfl
      have hs1 : tryMatch zipPassRE ('s' :: ('h' :: ('p' :: ('a' :: ('s' :: ('s' ::
        (' ' :: ("-p ".data ++ (c0 :: cs0))))))))) = none := rfl
      have hs2 : tryMatch zipPassRE ('h' :: ('p' :: ('a' :: ('s' :: ('s' ::
        (' ' :: ("-p ".data ++ (c0 :: cs0)))))))) = none := rfl
      have hs3 : tryMatch zipPassRE ('p' :: ('a' :: ('s' :: ('s' ::
        (' ' :: ("-p ".data ++ (c0 :: cs0))))))) = none := rfl
      have hs4 : tryMatch zipPassRE ('a' :: ('s' :: ('s' ::
        (' ' :: ("-p ".data ++ (c0 :: cs0)))))) = none := rfl
      have hs5 : tryMatch zipPassRE ('s' :: ('s' ::
        (' ' :: ("-p ".data ++ (c0 :: cs0))))) = none := rfl
      have hs6 : tryMatch zipPassRE ('s' ::
        (' ' :: ("-p ".data ++ (c0 :: cs0)))) = none := rfl
      have hs7 : tryMatch zipPassRE (' ' :: ("-p ".data ++ (c0 :: cs0))) = none := rfl
      rw [skip_nols 's' _ _ hs0, skip_nols 's' _ _ hs1, skip_nols 'h' _ _ hs2,
        skip_nols 'p' _ _ hs3, skip_nols 'a' _ _ hs4, skip_nols 's' _ _ hs5,
        skip_nols 's' _ _ hs6, skip_nols ' ' _ _ hs7]
      rw [match_nols _ htmB, scanFrom_nil zipPassRE false _ rfl]
    have hG1B : findAllG1 zipPassRE (String.mk ("sshpass -p ".data ++ (c0 :: cs0))) =
        [String.mk (c0 :: cs0)] := by
      unfold findAllG1
      rw [hscanB]
      rfl
    have hcf : credFilter (String.mk (c0 :: cs0)) = true := by
      unfold credFilter
      rw [Bool.and_eq_true]
      constructor
      · exact decide_eq_true hlen
      · have hb1 : (String.mk (c0 :: cs0) == "alpine") = false := by
          cases hb : (String.mk (c0 :: cs0) == "alpine")
          · rfl
          · exact absurd (eq_of_beq hb) hal
        have hb2 : (String.mk (c0 :: cs0) == "$password") = false := by
          cases hb : (String.mk (c0 :: cs0) == "$password")
          · rfl
          · exact absurd (eq_of_beq hb) hpw
        rw [hb1, hb2]
        rfl
    constructor
    · unfold extract_credentials
      apply List.mem_append_left
      rw [hG1A]
      simp
    · unfold extract_credentials
      apply List.mem_append_right
      rw [show pass_patterns = (zipPassRE, "Zip Password") ::
        [(passwordRE, "Password"), (passwdRE, "Password"), (apiKeyRE, "API Key"),
         (tokenRE, "Token")] from rfl]
      rw [List.flatMap_cons]
      apply List.mem_append_left
      show _ ∈ ((findAllG1 zipPassRE _).filter credFilter).map _
      rw [hG1B]
      simp [hcf]

/-! ### Further composition helpers -/

theorem all_false_of_all (p : Char → Bool) (l : List Char)
    (h : l.all (fun c => !(p c)) = true) : ∀ c ∈ l, p c = false := by
  intro c hc
  have h2 := List.all_eq_true.mp h c hc
  cases hp : p c
  · rfl
  · rw [hp] at h2
    simp at h2

theorem dropWhile_self_of_takeWhile_nil (q : Char → Bool) (t : List Char)
    (h : t.takeWhile q = []) : t.dropWhile q = t := by
  cases t with
  | nil => rfl
  | cons c cs =>
    rw [List.takeWhile_cons] at h
    by_cases hc : q c
    · rw [if_pos hc] at h
      simp at h
    · rw [List.dropWhile_cons, if_neg hc]

theorem run_grpPlus (i : Nat) (q : Char → Bool) (c0 : Char) (cs0 : List Char) (t : List Char)
    {b : RE} {cp : Caps} {y1 y2 : List Char} {y3 : Caps}
    {ys : List (List Char × List Char × Caps)}
    (hq : ∀ c ∈ c0 :: cs0, q c = true)
    (ht : t.takeWhile q = [])
    (hy : RE.run b t (setCap i (c0 :: cs0) cp) = (y1, y2, y3) :: ys) :
    ∃ zs, RE.run (.cat (.grp i (plus q)) b) ((c0 :: cs0) ++ t) cp =
      ((c0 :: cs0) ++ y1, y2, y3) :: zs := by
  have hcls : RE.run (cls q) ((c0 :: cs0) ++ t) cp = [([c0], cs0 ++ t, cp)] := by
    have h2 := run_seq_psOK [q] [c0] (cs0 ++ t) cp (by simp [psOK, hq c0 (by simp)])
    simpa using h2
  have hstar0 := run_starG_eq q (cs0 ++ t) cp
  rw [takeWhile_append_all q cs0 t (fun c hc => hq c (by simp [hc])), ht,
    List.append_nil, dropWhile_append_all q cs0 t (fun c hc => hq c (by simp [hc])),
    dropWhile_self_of_takeWhile_nil q t ht] at hstar0
  obtain ⟨us, hplus⟩ : ∃ us, RE.run (plus q) ((c0 :: cs0) ++ t) cp =
      (c0 :: cs0, t, cp) :: us := by
    have h2 := run_cat_head (cls q) (.starG q) ((c0 :: cs0) ++ t) cp hcls hstar0
    exact h2
  obtain ⟨vs, hgrp⟩ := run_grp_head i (plus q) ((c0 :: cs0) ++ t) cp hplus
  obtain ⟨zs, hz⟩ := run_cat_head (.grp i (plus q)) b ((c0 :: cs0) ++ t) cp hgrp hy
  exact ⟨zs, hz⟩

theorem run_cat_starG_nil {p : Char → Bool} {b : RE} {rest : List Char} {cp : Caps}
    {y1 y2 : List Char} {y3 : Caps} {ys : List (List Char × List Char × Caps)}
    (h0 : ∀ c ∈ rest.take 1, p c = false)
    (hy : RE.run b rest cp = (y1, y2, y3) :: ys) :
    ∃ zs, RE.run (.cat (.starG p) b) rest cp = ([] ++ y1, y2, y3) :: zs :=
  run_cat_head _ _ _ _ (run_starG_nil p rest cp h0) hy

set_option maxHeartbeats 2000000 in
/-- C3, amended: the declared-password scan matches only assignments with
the literal plus-equals, and its capture is everything between the dash P
flag and the closing single quote rather than the bare password token: on
the equals form nothing is extracted, and on the plus-equals form the
whole remainder of the quoted value is extracted. -/
theorem C3_amended_thm (v : List Char)
    (hne : v ≠ [])
    (hv : ∀ c ∈ v, (c == squote) = false ∧ (c == '-') = false ∧ (c == 'U') = false)
    (hsp1 : ∀ c ∈ v.take 1, pySpace c = false) :
    (extract_zip_info (String.mk ("Unzp=".data ++ ([squote] ++
      ("unzip -P ".data ++ (v ++ [squote])))))).passwords = [] ∧
    (extract_zip_info (String.mk ("Unzp+=".data ++ ([squote] ++
      ("unzip -P ".data ++ (v ++ [squote])))))).passwords = [String.mk v] := by
  constructor
  · -- the equals form is never matched
    show sortedDedup (findAllG1 zipVarRE (String.mk ("Unzp=".data ++ ([squote] ++
      ("unzip -P ".data ++ (v ++ [squote])))))) = []
    have hEq0 : tryMatch zipVarRE ('U' :: ("nzp=".data ++ ([squote] ++
        ("unzip -P ".data ++ (v ++ [squote]))))) = none := rfl
    have hAllU : ∀ c ∈ ("nzp=".data ++ ([squote] ++ ("unzip -P ".data ++ (v ++ [squote])))),
        ((fun c => c == 'U') c) = false := by
      intro c hc
      rcases List.mem_append.mp hc with h | h
      · exact all_false_of_all (fun c => c == 'U') "nzp=".data (by decide) c h
      · rcases List.mem_append.mp h with h2 | h2
        · have hcq : c = squote := by simpa using h2
          rw [hcq]
          decide
        · rcases List.mem_append.mp h2 with h3 | h3
          · exact all_false_of_all (fun c => c == 'U') "unzip -P ".data (by decide) c h3
          · rcases List.mem_append.mp h3 with h4 | h4
            · exact (hv c h4).2.2
            · have hcq : c = squote := by simpa using h4
              rw [hcq]
              decide
    have hdrop : ∀ n, tryMatch zipVarRE
        (("nzp=".data ++ ([squote] ++ ("unzip -P ".data ++ (v ++ [squote])))).drop n) =
        none :=
      tryMatch_fail_on_drops (fun c => c == 'U') _ _ _ hAllU
    have hscan : scanFrom zipVarRE false ("Unzp=".data ++ ([squote] ++
        ("unzip -P ".data ++ (v ++ [squote])))) true = [] := by
      rw [show ("Unzp=".data ++ ([squote] ++ ("unzip -P ".data ++ (v ++ [squote])))) =
        'U' :: ("nzp=".data ++ ([squote] ++ ("unzip -P ".data ++ (v ++ [squote]))))
        from rfl]
      rw [skip_nols 'U' _ _ hEq0]
      exact scanFrom_fail_all zipVarRE false _ hdrop _
    have hg : findAllG1 zipVarRE (String.mk ("Unzp=".data ++ ([squote] ++
        ("unzip -P ".data ++ (v ++ [squote]))))) = [] := by
      unfold findAllG1
      show (scanFrom zipVarRE false _ true).map _ = []
      rw [hscan]
      rfl
    rw [hg]
    rfl
  · -- the plus-equals form matches at the start and captures to the quote
    cases v with
    | nil => exact absurd rfl hne
    | cons c0 cs0 =>
      have hqv : ∀ c ∈ c0 :: cs0, notSquote c = true := by
        intro c hc
        unfold notSquote
        rw [(hv c hc).1]
        rfl
      have h8 : RE.run (RE.cat (cls (fun c => c == squote)) (RE.seq []))
          [squote] (setCap 1 (c0 :: cs0) noCaps) =
          [([squote], [], setCap 1 (c0 :: cs0) noCaps)] := rfl
      obtain ⟨z7, h7⟩ := run_grpPlus 1 notSquote c0 cs0 [squote] hqv rfl h8
      have hsp1q : ∀ c ∈ ((c0 :: cs0) ++ [squote]).take 1, pySpace c = false :=
        fun c hc => hsp1 c hc
      obtain ⟨z6, h6⟩ := run_cat_space hsp1q h7
      obtain ⟨z5, h5⟩ := run_cat_litlike ("-P".data.map (fun a => fun c => c == a))
        "-P".data (by decide) h6
      have htk : (' ' :: ("-P".data ++ (' ' :: ((c0 :: cs0) ++
          [squote])))).takeWhile notSquote = " -P ".data ++ (c0 :: cs0) := by
        rw [show (' ' :: ("-P".data ++ (' ' :: ((c0 :: cs0) ++ [squote])))) =
          " -P ".data ++ ((c0 :: cs0) ++ [squote]) from rfl]
        rw [takeWhile_append_all notSquote " -P ".data _
          (fun c hc => List.all_eq_true.mp (by decide) c hc)]
        rw [takeWhile_append_all notSquote (c0 :: cs0) [squote] hqv]
        rw [show ([squote].takeWhile notSquote) = [] from rfl, List.append_nil]
      have h5' : RE.run
          (RE.cat (.seq ("-P".data.map (fun a => fun c => c == a)))
            (RE.cat (plus pySpace)
              (RE.cat (.grp 1 (plus notSquote))
                (RE.cat (cls (fun c => c == squote)) (RE.seq [])))))
          ((' ' :: ("-P".data ++ (' ' :: ((c0 :: cs0) ++ [squote])))).drop 1) noCaps =
          ("-P".data ++ (' ' :: ((c0 :: cs0) ++ [squote])), [],
            setCap 1 (c0 :: cs0) noCaps) :: z5 := h5
      obtain ⟨z4, h4⟩ := run_cat_starG notSquote _
        (' ' :: ("-P".data ++ (' ' :: ((c0 :: cs0) ++ [squote])))) noCaps 1
        (by rw [htk]; simp) h5'
        (by
          intro k hk1 hk2
          have hμ : k = 2 + (k - 2) := by
            rw [htk] at hk2
            omega
          rw [hμ, ← List.drop_drop]
          rw [show ((' ' :: ("-P".data ++ (' ' :: ((c0 :: cs0) ++ [squote])))).drop 2) =
            'P' :: (' ' :: ((c0 :: cs0) ++ [squote])) from rfl]
          apply run_headFail
          intro c hc
          have hmem : c ∈ 'P' :: (' ' :: ((c0 :: cs0) ++ [squote])) :=
            List.drop_subset _ _ (List.take_subset 1 _ hc)
          rcases List.mem_cons.mp hmem with rfl | hmem2
          · decide
          · rcases List.mem_cons.mp hmem2 with rfl | hmem3
            · decide
            · rcases List.mem_append.mp hmem3 with h | h
              · exact (hv c h).2.1
              · have hcq : c = squote := by simpa using h
                rw [hcq]
                decide)
      obtain ⟨z3, h3⟩ := run_cat_litlike
        (("+=".data ++ [squote] ++ "unzip".data).map (fun a => fun c => c == a))
        ("+=".data ++ [squote] ++ "unzip".data) (by decide) h4
      obtain ⟨z2, h2⟩ := run_cat_starG_nil
        (p := pyDigit)
        (by
          intro c hc
          have hcq : c = '+' := by simpa using hc
          rw [hcq]
          decide) h3
      obtain ⟨z1, h1⟩ := run_cat_litlike ("Unzp".data.map (fun a => fun c => c == a))
        "Unzp".data (by decide) h2
      have h1' : RE.run zipVarRE ("Unzp+=".data ++ ([squote] ++
          ("unzip -P ".data ++ ((c0 :: cs0) ++ [squote])))) noCaps =
          ("Unzp+=".data ++ ([squote] ++ ("unzip -P ".data ++ ((c0 :: cs0) ++ [squote]))),
            [], (some (c0 :: cs0), none)) :: z1 := h1
      have htmP : tryMatch zipVarRE ("Unzp+=".data ++ ([squote] ++
          ("unzip -P ".data ++ ((c0 :: cs0) ++ [squote])))) =
          some ('U' :: ("nzp+=".data ++ ([squote] ++
            ("unzip -P ".data ++ ((c0 :: cs0) ++ [squote])))),
            [], (some (c0 :: cs0), none)) := by
        show (RE.run zipVarRE ("Unzp+=".data ++ ([squote] ++
          ("unzip -P ".data ++ ((c0 :: cs0) ++ [squote])))) noCaps).head? = _
        rw [h1']
        rfl
      have hscanP : scanFrom zipVarRE false ("Unzp+=".data ++ ([squote] ++
          ("unzip -P ".data ++ ((c0 :: cs0) ++ [squote])))) true =
          [('U' :: ("nzp+=".data ++ ([squote] ++
            ("unzip -P ".data ++ ((c0 :: cs0) ++ [squote])))),
            (some (c0 :: cs0), none))] := by
        rw [match_nols true htmP, scanFrom_nil zipVarRE false _ rfl]
      show sortedDedup (findAllG1 zipVarRE (String.mk ("Unzp+=".data ++ ([squote] ++
        ("unzip -P ".data ++ ((c0 :: cs0) ++ [squote])))))) = [String.mk (c0 :: cs0)]
      have hg : findAllG1 zipVarRE (String.mk ("Unzp+=".data ++ ([squote] ++
          ("unzip -P ".data ++ ((c0 :: cs0) ++ [squote]))))) =
          [String.mk (c0 :: cs0)] := by
        unfold findAllG1
        show (scanFrom zipVarRE false _ true).map _ = _
        rw [hscanP]
        rfl
      rw [hg]
      rfl

/-- C3, witness for the amended theorem at the concrete assignment value,
showing nothing extracted from the equals form and the whole remainder of
the quoted value extracted from the plus-equals form. -/
theorem C3_amended_witness :
    (extract_zip_info (String.mk ("Unzp=".data ++ ([squote] ++ ("unzip -P ".data ++
      ("secretA archive1.zip".data ++ [squote])))))).passwords = [] ∧
    (extract_zip_info (String.mk ("Unzp+=".data ++ ([squote] ++ ("unzip -P ".data ++
      ("secretA archive1.zip".data ++ [squote])))))).passwords =
      [String.mk "secretA archive1.zip".data] :=
  C3_amended_thm "secretA archive1.zip".data (by decide) (by decide) (by decide)

/-- C10, witness for the amended theorem at a concrete token. -/
theorem C10_amended_witness :
    (⟨"SSH Password", String.mk "hunter9".data⟩ : Credential) ∈
      extract_credentials (String.mk ("sshpass -p ".data ++ "hunter9".data)) ∧
    (⟨"Zip Password", String.mk "hunter9".data⟩ : Credential) ∈
      extract_credentials (String.mk ("sshpass -p ".data ++ "hunter9".data)) :=
  C10_amended_thm "hunter9".data (by decide) (by decide) (by decide) (by decide)
